import Mathlib

/-!
Verification development for the single-site blog crawler (`da_crawler.py`).

The Python source is shallowly embedded below.  Pure string manipulation
(regular-expression searches used by the URL classifier, whitespace
normalisation, chunking, tag stripping) is translated into executable Lean
functions over `List Char` / `String`.  External effects are explicit
parameters: HTTP fetching and HTML parsing appear as oracle functions, and
exceptions of fallible Python calls are modelled with `Except`.  Python
`set` iteration order (which is unspecified) is modelled by an explicit
reordering parameter.
-/

set_option maxRecDepth 10000

namespace DaCrawler

/-! ### Basic character/string utilities (models of Python `str` primitives) -/

/-- The characters Python's `\s` class (and `str.strip`) treats as whitespace. -/
def pyWs (c : Char) : Bool :=
  c = ' ' || c = '\t' || c = '\n' || c = '\r' || c = '\x0b' || c = '\x0c'

/-- Lower-case a character list (model of `str.lower` for the ASCII data here). -/
def lowerL (l : List Char) : List Char := l.map Char.toLower

/-- Model of Python `str.strip()`: drop leading and trailing whitespace. -/
def trimL (l : List Char) : List Char :=
  ((l.dropWhile pyWs).reverse.dropWhile pyWs).reverse

/-- Model of Python `str.strip()` on `String`. -/
def pyStrip (s : String) : String := ⟨trimL s.data⟩

/-- `isPre p l`: `p` is a prefix of `l` (model of anchored matching). -/
def isPre : List Char → List Char → Bool
  | [], _ => true
  | _ :: _, [] => false
  | a :: as, b :: bs => a = b && isPre as bs

/-- `containsL pat l`: `pat` occurs as a contiguous substring of `l`
(model of Python's `pat in s`). -/
def containsL (pat : List Char) : List Char → Bool
  | [] => isPre pat []
  | l@(_ :: t) => isPre pat l || containsL pat t

/-- Substring test on `String` (model of Python `pat in s`). -/
def containsStr (s pat : String) : Bool := containsL pat.data s.data

/-- Remainder of `l` after the first occurrence of `pat`, if any. -/
def afterFirst (pat : List Char) : List Char → Option (List Char)
  | [] => if isPre pat [] then some [] else none
  | l@(_ :: t) => if isPre pat l then some (l.drop pat.length) else afterFirst pat t

/-- `endsL suf l`: `l` ends with `suf` (model of a `$`-anchored match). -/
def endsL (suf l : List Char) : Bool := isPre suf.reverse l.reverse

/-- `scanAny p l`: `p` holds at some suffix of `l`
(model of `re.search`, which tries every start position). -/
def scanAny (p : List Char → Bool) : List Char → Bool
  | [] => p []
  | l@(_ :: t) => p l || scanAny p t

/-- Collapse every maximal whitespace run to a single space
(model of `re.sub(r"\s+", " ", s)`); `fuel` bounds the scan (one unit per
consumed character, so the input length is enough). -/
def collapseWsAux : Nat → List Char → List Char
  | 0, l => l
  | _ + 1, [] => []
  | fuel + 1, c :: cs =>
    if pyWs c then ' ' :: collapseWsAux fuel (cs.dropWhile pyWs)
    else c :: collapseWsAux fuel cs

/-- `re.sub(r"\s+", " ", s)` on `String`. -/
def collapseWs (s : String) : String := ⟨collapseWsAux s.data.length s.data⟩

/-! ### Matching-combinator helpers for the fixed regex patterns -/

/-- Consume one expected character. -/
def expectChar (c : Char) : List Char → Option (List Char)
  | x :: r => if x = c then some r else none
  | [] => none

/-- Consume one decimal digit (one `\d`). -/
def expectDigit : List Char → Option (List Char)
  | x :: r => if x.isDigit then some r else none
  | [] => none

/-- Consume a maximal nonempty digit run (`\d+`; exact here because every
following pattern element is a non-digit). -/
def expectDigits (l : List Char) : Option (List Char) :=
  match l with
  | x :: _ => if x.isDigit then some (l.dropWhile Char.isDigit) else none
  | [] => none

/-- Consume an expected literal string. -/
def expectLit (pat l : List Char) : Option (List Char) :=
  if isPre pat l then some (l.drop pat.length) else none

/-- A `[\w-]` character: `\w` (alphanumeric or underscore) or a dash. -/
def wordDash (c : Char) : Bool := c.isAlphanum || c = '_' || c = '-'

/-! ### URL classifier (from `discover_all_links`, lines 705-787) -/

/-- Match `/\d+-\d+x\d+/` at the current position. -/
def dimPathAt (l : List Char) : Bool :=
  ((((((expectChar '/' l).bind expectDigits).bind (expectChar '-')).bind
    expectDigits).bind (expectChar 'x')).bind expectDigits).bind
    (expectChar '/') |>.isSome

/-- Match one of the thumbnail extensions `jpg|jpeg|png|gif|webp`. -/
def extAt (r : List Char) : Bool :=
  isPre "jpg".data r || isPre "jpeg".data r || isPre "png".data r ||
  isPre "gif".data r || isPre "webp".data r

/-- Match `\d+x\d+\.(jpg|jpeg|png|gif|webp)` at the current position. -/
def thumbAt (l : List Char) : Bool :=
  match (((expectDigits l).bind (expectChar 'x')).bind expectDigits).bind
      (expectChar '.') with
  | some r => extAt r
  | none => false

/-- Match `/page/\d+` at the current position. -/
def pageNumAt (l : List Char) : Bool :=
  match expectLit "/page/".data l with
  | some r => (expectDigit r).isSome
  | none => false

/-- STAGE 1 of the classifier: the `hard_exclude_patterns` list, each searched
with `re.search(..., re.I)`; modelled by searching the lower-cased URL. -/
def hardExcluded (u : String) : Bool :=
  let s := lowerL u.data
  containsL "?share=".data s ||
  containsL "&share=".data s || containsL "#share=".data s ||
  scanAny dimPathAt s ||
  scanAny thumbAt s ||
  containsL "#respond".data s ||
  containsL "#comment".data s ||
  scanAny pageNumAt s ||
  containsL "/author/".data s ||
  containsL "/writer/".data s || containsL "/writers/".data s

/-- Drop at most one trailing slash (the `/?$` suffix of the soft patterns). -/
def stripOneSlash (l : List Char) : List Char :=
  match l.reverse with
  | '/' :: r => r.reverse
  | _ => l

/-- `suf` followed by an optional final slash ends the string. -/
def endsOpt (suf : String) (s : List Char) : Bool :=
  endsL suf.data s || endsL (suf.data ++ ['/']) s

/-- Match `/\d{4}/?$`: the string ends in a slash-delimited bare year. -/
def yearEnd (s : List Char) : Bool :=
  match (stripOneSlash s).reverse with
  | d1 :: d2 :: d3 :: d4 :: '/' :: _ =>
    d1.isDigit && d2.isDigit && d3.isDigit && d4.isDigit
  | _ => false

/-- Match `/\d{4}/\d{2}/?$`: the string ends in a bare year/month. -/
def yearMonthEnd (s : List Char) : Bool :=
  match (stripOneSlash s).reverse with
  | m1 :: m2 :: '/' :: d1 :: d2 :: d3 :: d4 :: '/' :: _ =>
    m1.isDigit && m2.isDigit && d1.isDigit && d2.isDigit && d3.isDigit &&
    d4.isDigit
  | _ => false

/-- STAGE 2 of the classifier: the `soft_exclude_patterns` list (all
`$`-anchored with an optional trailing slash, searched with `re.I`). -/
def softExcluded (u : String) : Bool :=
  let s := lowerL u.data
  endsOpt "/category" s || endsOpt "/categories" s ||
  endsOpt "/tag" s || endsOpt "/tags" s ||
  endsOpt "/topic" s || endsOpt "/topics" s ||
  endsOpt "/archive" s || endsOpt "/archives" s ||
  yearEnd s || yearMonthEnd s ||
  endsOpt "/hub" s || endsOpt "/all-articles" s ||
  endsOpt "/news" s || endsOpt "/world-news" s ||
  endsOpt "/politics" s || endsOpt "/opinion" s ||
  endsOpt "/sports" s || endsOpt "/tech" s ||
  endsOpt "/business" s || endsOpt "/story" s

/-- Consume `/20\d{2}/\d{2}/\d{2}/` (used by article patterns 2 and 3). -/
def ymdAt (l : List Char) : Option (List Char) :=
  ((((((((expectChar '/' l).bind (expectLit "20".data)).bind
    expectDigit).bind expectDigit).bind (expectChar '/')).bind
    expectDigit).bind expectDigit).bind (expectChar '/')).bind
    (fun r => (((expectDigit r).bind expectDigit).bind (expectChar '/')))

/-- Match `/20\d{2}/\d{2}/\d{2}/[\w-]+` at the current position (pattern 3). -/
def fullDateAt (l : List Char) : Bool :=
  match ymdAt l with
  | some (c :: _) => wordDash c
  | _ => false

/-- Match `/(news|story)/20\d{2}/\d{2}/\d{2}/[\w-]+` at the current position
(pattern 2). -/
def newsDateAt (l : List Char) : Bool :=
  match expectLit "/news".data l with
  | some r => fullDateAt r
  | none =>
    match expectLit "/story".data l with
    | some r => fullDateAt r
    | none => false

/-- Match `/20\d{2}/\d{2}/[\w-]{10,}` at the current position (pattern 4). -/
def wpDateAt (l : List Char) : Bool :=
  match ((((((expectChar '/' l).bind (expectLit "20".data)).bind
      expectDigit).bind expectDigit).bind (expectChar '/')).bind
      expectDigit).bind expectDigit with
  | some ('/' :: r) => 10 ≤ (r.takeWhile wordDash).length
  | _ => false

/-- Match `/[\w-]{20,}/?$`: after an optional final slash the string ends in
a `[\w-]` run of length at least 20 that is preceded by a slash (pattern 5). -/
def longSlugEnd (l : List Char) : Bool :=
  let r := (stripOneSlash l).reverse
  let run := r.takeWhile wordDash
  20 ≤ run.length &&
    (match r.drop run.length with
     | '/' :: _ => true
     | _ => false)

/-- `link.rstrip('/').split('/')[-1]`: the final path segment after removing
all trailing slashes. -/
def lastSegment (l : List Char) : List Char :=
  ((l.reverse.dropWhile (· = '/')).takeWhile (· ≠ '/')).reverse

/-- The `category_words` list of pattern 5. -/
def categoryWords : List String :=
  ["news", "politics", "world", "business", "sports",
   "tech", "technology", "science", "opinion", "entertainment",
   "lifestyle", "health", "culture", "economy", "society"]

/-- STAGE 3 of the classifier: the ordered article-shape rules of
`discover_all_links` (first match wins; all searched case-sensitively on the
raw link, exactly as in the source). -/
def isArticleUrl (link : String) : Bool :=
  let l := link.data
  if containsL "/article/".data l then true
  else if scanAny newsDateAt l then true
  else if scanAny fullDateAt l then true
  else if scanAny wpDateAt l && !(endsL ['/'] l) then true
  else if longSlugEnd l then
    !(categoryWords.contains ⟨lowerL (lastSegment l)⟩)
  else false

/-- Model of `urlparse(u).netloc` for the absolute URLs the crawler handles:
the host part between `://` (or a leading `//`) and the next `/`, `?` or `#`. -/
def netloc (u : String) : String :=
  match afterFirst "://".data u.data with
  | some r => ⟨r.takeWhile (fun c => !(c = '/' || c = '?' || c = '#'))⟩
  | none =>
    match u.data with
    | '/' :: '/' :: r => ⟨r.takeWhile (fun c => !(c = '/' || c = '?' || c = '#'))⟩
    | _ => ""

/-! ### Link Extractor (`extract_article_links`, lines 566-597)

The stdlib resolver `urljoin` and host parser `urlparse(...).netloc` are
external to the repository; they appear as explicit function parameters
(`uj`, `nl`) so the theorems are about the extractor's own filtering.
Anchors without an `href` attribute are modelled as `none` entries. -/

/-- The structural denylist checked with `x in url.lower()`. -/
def linkDenylist : List String :=
  ["login", "signup", "privacy", "terms",
   "contact", "about", ".jpg", ".png", ".gif"]

/-- `any(x in url.lower() for x in [...])`. -/
def deniedUrl (url : String) : Bool :=
  linkDenylist.any (fun x => containsL x.data (lowerL url.data))

/-- The per-anchor loop of `extract_article_links`: skip missing hrefs,
resolve against the base URL, drop denylisted URLs, keep same-host URLs,
deduplicate. -/
def extractLinksAux (uj : String → String → String) (nl : String → String)
    (base : String) : List (Option String) → List String → List String
  | [], acc => acc
  | none :: rest, acc => extractLinksAux uj nl base rest acc
  | some h :: rest, acc =>
    let url := uj base h
    if deniedUrl url then extractLinksAux uj nl base rest acc
    else if nl url = nl base then
      extractLinksAux uj nl base rest (if url ∈ acc then acc else acc ++ [url])
    else extractLinksAux uj nl base rest acc

/-- `extract_article_links(html, base_url)`, with the parsed hrefs given. -/
def extract_article_links (uj : String → String → String)
    (nl : String → String) (base : String) (hrefs : List (Option String)) :
    List String :=
  extractLinksAux uj nl base hrefs []

/-! ### Frontier Manager (`discover_all_links`, lines 662-805)

The composite of `requests.get` and `extract_article_links` is an oracle
`pageLinks : String → Option (List String)`; `none` models a failed fetch
(non-200 status or a raised exception, both of which skip link processing).
The state records, besides the Python variables `visited`, `queue` and
`article_urls`, two append-only histories: every URL ever appended to the
queue (`enqLog`, with multiplicity) and every URL fetched (`fetchLog`). -/

structure DiscState where
  visited : List String
  queue : List String
  articles : List String
  enqLog : List String
  fetchLog : List String
deriving Repr, DecidableEq

/-- `queue.append(link)` (line 748), with its history entry. -/
def enq (st : DiscState) (l : String) : DiscState :=
  { st with queue := st.queue ++ [l], enqLog := st.enqLog ++ [l] }

/-- `article_urls.add(link)` (line 791), insertion order kept. -/
def addArt (st : DiscState) (l : String) : DiscState :=
  { st with articles := st.articles ++ [l] }

/-- Handling of one discovered link (lines 694-796): skip off-domain links,
skip hard-excluded links (stage 1), enqueue unvisited links, and — when the
link is not a section page (stage 2), passes an article rule (stage 3) and
is new — collect it; the second component is whether the `break` at
line 796 fired (article budget reached). -/
def procStep (domain : String) (maxArticles : Nat) (st : DiscState)
    (l : String) : DiscState × Bool :=
  if netloc l = domain then
    if hardExcluded l = true then (st, false)
    else
      let st1 := if l ∈ st.visited then st else enq st l
      if softExcluded l = false ∧ isArticleUrl l = true ∧ l ∉ st1.articles then
        if maxArticles ≤ (addArt st1 l).articles.length then (addArt st1 l, true)
        else (addArt st1 l, false)
      else (st1, false)
  else (st, false)

/-- The `for link in links` loop of `discover_all_links`; the `break`
abandons the remaining links. -/
def procLinks (domain : String) (maxArticles : Nat) :
    List String → DiscState → DiscState × Bool
  | [], st => (st, false)
  | l :: rest, st =>
    match procStep domain maxArticles st l with
    | (st', true) => (st', true)
    | (st', false) => procLinks domain maxArticles rest st'

/-- The `while queue and len(visited) < max_pages and
len(article_urls) < max_articles` loop (lines 674-802).  `fuel` bounds the
number of iterations; every claim below is proved for all fuel values, so in
particular for the terminating run. -/
def discLoop (oracle : String → Option (List String)) (domain : String)
    (maxPages maxArticles : Nat) : Nat → DiscState → DiscState
  | 0, st => st
  | Nat.succ fuel, st =>
    match st.queue with
    | [] => st
    | url :: rest =>
      if st.visited.length < maxPages ∧ st.articles.length < maxArticles then
        if url ∈ st.visited then
          discLoop oracle domain maxPages maxArticles fuel { st with queue := rest }
        else
          match oracle url with
          | none =>
            discLoop oracle domain maxPages maxArticles fuel
              { st with queue := rest, visited := st.visited ++ [url],
                        fetchLog := st.fetchLog ++ [url] }
          | some links =>
            discLoop oracle domain maxPages maxArticles fuel
              (procLinks domain maxArticles links
                { st with queue := rest, visited := st.visited ++ [url],
                          fetchLog := st.fetchLog ++ [url] }).1
      else st

/-- Initial frontier state: `visited = set()`, `queue = [start_url]`,
`article_urls = set()`. -/
def initState (start : String) : DiscState :=
  ⟨[], [start], [], [], []⟩

/-- The final frontier state of `discover_all_links`. -/
def discoverState (oracle : String → Option (List String)) (start : String)
    (maxPages maxArticles : Nat) (fuel : Nat) : DiscState :=
  discLoop oracle (netloc start) maxPages maxArticles fuel (initState start)

/-- `return list(article_urls)[:max_articles]` (line 805).  `setOrder`
models the unspecified iteration order of the Python `set`: it may be any
reordering of the insertion-ordered accumulator. -/
def discover (oracle : String → Option (List String)) (start : String)
    (maxPages maxArticles : Nat) (setOrder : List String → List String)
    (fuel : Nat) : List String :=
  (setOrder (discoverState oracle start maxPages maxArticles fuel).articles).take
    maxArticles

/-! ### Regex-substitution primitives used by the extraction pipeline -/

/-- Case-optionally-insensitive prefix test (`re.I` handling). -/
def ciPre (ci : Bool) (pat l : List Char) : Bool :=
  if ci then isPre pat (lowerL (l.take pat.length)) else isPre pat l

/-- Remainder after the first (case-optionally-insensitive) occurrence of
`pat`, if any. -/
def afterFirstCI (ci : Bool) (pat : List Char) : List Char → Option (List Char)
  | [] => if ciPre ci pat [] then some [] else none
  | l@(_ :: t) =>
    if ciPre ci pat l then some (l.drop pat.length) else afterFirstCI ci pat t

/-- Model of `re.sub(open + "[\s\S]*?" + close, repl, s)`: every occurrence
of `openPat` is matched non-greedily to the nearest following `closePat` and
the whole span replaced by `repl`; an open with no following close is left
in place.  `fuel` bounds the scan (one unit per consumed character). -/
def stripSpans (ci : Bool) (openPat closePat repl : List Char) :
    Nat → List Char → List Char
  | 0, l => l
  | _ + 1, [] => []
  | fuel + 1, l@(c :: rest) =>
    if ciPre ci openPat l then
      match afterFirstCI ci closePat (l.drop openPat.length) with
      | some rem => repl ++ stripSpans ci openPat closePat repl fuel rem
      | none => c :: stripSpans ci openPat closePat repl fuel rest
    else c :: stripSpans ci openPat closePat repl fuel rest

/-- `stripSpans` with enough fuel for the whole input. -/
def runStrip (ci : Bool) (o c repl : List Char) (l : List Char) : List Char :=
  stripSpans ci o c repl l.length l

/-- Model of `re.sub(r"<[^>]+>", "", s)`: drop every `<...>` span holding at
least one non-`>` character. -/
def removeTagsAux : Nat → List Char → List Char
  | 0, l => l
  | _ + 1, [] => []
  | fuel + 1, c :: rest =>
    if c = '<' then
      let body := rest.takeWhile (· ≠ '>')
      match rest.drop body.length with
      | '>' :: after =>
        if body = [] then c :: removeTagsAux fuel rest
        else removeTagsAux fuel after
      | _ => c :: removeTagsAux fuel rest
    else c :: removeTagsAux fuel rest

/-- `re.sub(r"<[^>]+>", "", s)` on `String`. -/
def removeTags (s : String) : String := ⟨removeTagsAux s.data.length s.data⟩

/-- Model of `re.sub(r"\n\s*\n\s*\n+", "\n\n", s)` (line 466): a match starts
at a newline whose maximal whitespace run contains at least three newlines
and extends (greedily) through the run's last newline; it is replaced by a
single blank line. -/
def capNewlinesAux : Nat → List Char → List Char
  | 0, l => l
  | _ + 1, [] => []
  | fuel + 1, l@(c :: rest) =>
    if c = '\n' then
      let run := l.takeWhile pyWs
      if 3 ≤ run.count '\n' then
        let keep := (run.reverse.takeWhile (· ≠ '\n')).length
        '\n' :: '\n' :: capNewlinesAux fuel (l.drop (run.length - keep))
      else c :: capNewlinesAux fuel rest
    else c :: capNewlinesAux fuel rest

/-- `re.sub(r"\n\s*\n\s*\n+", "\n\n", s)` on `String`. -/
def capNewlines (s : String) : String := ⟨capNewlinesAux s.data.length s.data⟩

/-! ### `chunk_text` (lines 164-177) -/

/-- The `while start < length` slicing loop; `fuel` bounds the iterations
(for any `maxLen ≥ 1` the input length is enough). -/
def chunkAux (maxLen : Nat) : Nat → List Char → List (List Char)
  | 0, _ => []
  | _ + 1, [] => []
  | fuel + 1, l => l.take maxLen :: chunkAux maxLen fuel (l.drop maxLen)

/-- `chunk_text(text, max_len)`: split into consecutive `maxLen`-char slices. -/
def chunk_text (text : String) (maxLen : Nat) : List String :=
  (chunkAux maxLen text.data.length text.data).map (fun c => ⟨c⟩)

/-! ### `html_preclean` (lines 180-186) and the tail of
`extract_article_content` (lines 347-352) -/

/-- `html_preclean`: blank out script/style/comment spans, collapse
whitespace, strip. -/
def html_preclean (s : String) : String :=
  pyStrip (collapseWs ⟨runStrip false "<!--".data "-->".data [' ']
    (runStrip true "<style".data "</style>".data [' ']
      (runStrip true "<script".data "</script>".data [' '] s.data))⟩)

/-- The final cleaning applied to the located container's HTML in
`extract_article_content`: remove script/style/comment spans, strip. -/
def containerClean (s : String) : String :=
  pyStrip ⟨runStrip false "<!--".data "-->".data []
    (runStrip true "<style".data "</style>".data []
      (runStrip true "<script".data "</script>".data [] s.data))⟩

/-- The five regex passes at the head of `strip_html_basic`
(lines 480-484): remove head/script/style/img/comment spans. -/
def basicStrip (s : String) : String :=
  ⟨runStrip false "<!--".data "-->".data []
    (runStrip true "<img".data ">".data []
      (runStrip true "<style".data "</style>".data []
        (runStrip true "<script".data "</script>".data []
          (runStrip true "<head".data "</head>".data [] s.data))))⟩

/-! ### Manual structural strategy (`manual_clean`, lines 404-473) -/

/-- The `skip_patterns` boilerplate denylist (lines 443-451). -/
def skipPatterns : List String :=
  ["click to share", "share on", "tweet", "share this",
   "subscribe", "newsletter", "follow us", "sign up",
   "read more", "continue reading", "related:", "tags:",
   "posted in", "filed under", "advertisement", "sponsored",
   "comment", "leave a comment", "view all posts",
   "copyright", "all rights reserved",
   "privacy policy", "terms of use", "cookie policy"]

/-- The per-element filter of `manual_clean` (lines 438-458): keep a text
iff it has length at least 3, contains no boilerplate phrase (lower-cased
substring test) and does not start with a bare URL. -/
def keepText (t : String) : Bool :=
  if t.length < 3 then false
  else if skipPatterns.any (fun p => containsL p.data (lowerL t.data)) then false
  else if isPre "http".data t.data || isPre "www".data t.data then false
  else true

/-- The content selectors iterated in order (line 433). -/
def contentSelectors : List String := ["p", "h2", "h3", "h4", "li", "blockquote"]

/-- The `parts` list (lines 422-460): the `h1` text and a blank line when a
nonempty `h1` exists, then for each selector in order the surviving texts of
the elements with that tag, in document order. -/
def manualParts (h1 : Option String) (elems : List (String × String)) :
    List String :=
  (match h1 with
   | some t => if t ≠ "" then [t, ""] else []
   | none => []) ++
  contentSelectors.flatMap (fun sel =>
    ((elems.filter (fun e => e.1 == sel)).map Prod.snd).filter keepText)

/-- STEP 4-5 of `manual_clean` (lines 422-469): join parts with blank lines,
collapse whitespace runs to single spaces, apply the newline cap, strip. -/
def manualAssemble (h1 : Option String) (elems : List (String × String)) :
    String :=
  pyStrip (capNewlines (collapseWs
    (String.intercalate "\n\n" (manualParts h1 elems))))

/-! ### Content Extraction Pipeline with explicit exceptions

External, fallible operations are an oracle bundle.  A Python
`try: B except: F` is translated as `match B with | ok v => ok v
| error _ => F`; an `Except.error` result of an embedded function therefore
means "this call raises", and the pipeline's contract is that every
top-level entry point always yields `Except.ok`. -/

/-- Outcome of one `requests.post` round-trip in `gpt_clean` that did not
raise: either a non-200 status, or a 200 reply with the extracted
(stripped) message content. -/
inductive LlmOut where
  | badStatus : LlmOut
  | content : String → LlmOut

/-- The external, possibly-raising operations used by the pipeline:
`container` is `HTMLParser` + junk decompose + the container-selector search
of `extract_article_content` (`ok none` = no container and no body found);
`docElems` is the re-parse in `manual_clean`, returning the first `h1` text
and the `(tag, text(strip=True))` element list; `basicTexts` is the parse +
`css("p, li, h1, h2, h3, h4")` text extraction of `strip_html_basic`;
`llm` is one `requests.post` + response decode (`error` = raised);
`artifacts` is `clean_llm_artifacts` (lines 189-221), a chain of total
`re.sub` calls modelled abstractly as a total text transform. -/
structure HtmlOps where
  container : String → Except Unit (Option String)
  docElems : String → Except Unit (Option String × List (String × String))
  basicTexts : String → Except Unit (List String)
  llm : String → Except Unit LlmOut
  artifacts : String → String

/-- `strip_html_basic` (lines 476-494): regex pre-strip, parse, keep texts
longer than 10 characters; the bare `except` returns the empty string. -/
def strip_html_basic (o : HtmlOps) (html : String) : Except Unit String :=
  match o.basicTexts (basicStrip html) with
  | .ok ts => .ok (String.intercalate "\n\n" (ts.filter (fun t => 10 < t.length)))
  | .error _ => .ok ""

/-- `extract_article_content` (lines 294-356): locate the container and
clean its HTML; on no container at all, or on any exception, fall back to
`strip_html_basic` on the original HTML. -/
def extract_article_content (o : HtmlOps) (html : String) : Except Unit String :=
  match o.container html with
  | .ok (some ah) => .ok (containerClean ah)
  | .ok none => strip_html_basic o html
  | .error _ => strip_html_basic o html

/-- The `try` body of `manual_clean` (lines 410-469). -/
def manualBody (o : HtmlOps) (html : String) : Except Unit String := do
  let ah ← extract_article_content o html
  match o.docElems ah with
  | .ok (h1, elems) => pure (manualAssemble h1 elems)
  | .error e => .error e

/-- `manual_clean` (lines 404-473): the body with its `except` handler. -/
def manual_clean (o : HtmlOps) (html : String) : Except Unit String :=
  match manualBody o html with
  | .ok s => .ok s
  | .error _ => strip_html_basic o html

/-- The per-chunk loop of `gpt_clean` (lines 238-277): a raised request or
decode aborts the whole body; a non-200 status or empty content substitutes
`strip_html_basic` on that chunk. -/
def gptChunkLoop (o : HtmlOps) : List String → Except Unit (List String)
  | [] => .ok []
  | c :: rest =>
    match o.llm c with
    | .error e => .error e
    | .ok .badStatus => do
      let t ← strip_html_basic o c
      let r ← gptChunkLoop o rest
      pure (t :: r)
    | .ok (.content s) =>
      if pyStrip s = "" then do
        let t ← strip_html_basic o c
        let r ← gptChunkLoop o rest
        pure (t :: r)
      else do
        let r ← gptChunkLoop o rest
        pure (pyStrip s :: r)

/-- The `try` body of `gpt_clean` (lines 228-288). -/
def gptBody (o : HtmlOps) (html : String) : Except Unit String := do
  let ah ← extract_article_content o html
  let outs ← gptChunkLoop o (chunk_text (html_preclean ah) 8000)
  let r := o.artifacts (String.intercalate "\n" outs)
  pure (pyStrip (collapseWs (removeTags r)))

/-- `gpt_clean` (lines 224-292): the body with its `except` handler. -/
def gpt_clean (o : HtmlOps) (html : String) : Except Unit String :=
  match gptBody o html with
  | .ok s => .ok s
  | .error _ => strip_html_basic o html

/-- `USE_LLM_CLEANING` (line 35). -/
def USE_LLM_CLEANING : Bool := true

/-- The strategy choice made in `crawl_site` (lines 860-863). -/
def cleanPipeline (o : HtmlOps) (html : String) : Except Unit String :=
  if USE_LLM_CLEANING then gpt_clean o html else manual_clean o html

/-- An oracle on which every external operation raises or fails: total
extraction failure. -/
def failOps : HtmlOps :=
  { container := fun _ => .error (), docElems := fun _ => .error (),
    basicTexts := fun _ => .error (), llm := fun _ => .error (),
    artifacts := fun s => s }

/-! ### Metadata Extractor, author resolution (`extract_metadata`,
lines 518-543)

JSON values reachable from a JSON-LD `author` field are modelled as
strings, objects and arrays (the shapes the resolver distinguishes). -/

inductive JVal where
  | str : String → JVal
  | obj : List (String × JVal) → JVal
  | arr : List JVal → JVal

/-- Python equality of a list element with the string `"name"`: true exactly
for the string value `"name"`. -/
def isNameStr : JVal → Bool
  | .str s => s == "name"
  | _ => false

/-- Python dict lookup (first binding wins; dict keys are unique). -/
def jlookup : List (String × JVal) → String → Option JVal
  | [], _ => none
  | (k, v) :: r, key => if k = key then some v else jlookup r key

/-- `d.get("name", "")` for an author object; non-string name values do not
occur in the modelled documents. -/
def getNameD (fs : List (String × JVal)) : String :=
  match jlookup fs "name" with
  | some (.str s) => s
  | some _ => ""
  | none => ""

/-- Python `"name" in a` for a list element: key test on dicts, substring
test on strings, membership test on lists. -/
def hasNameKey (v : JVal) : Bool :=
  match v with
  | .obj fs => (jlookup fs "name").isSome
  | .str s => containsL "name".data s.data
  | .arr xs => xs.any isNameStr

/-- `a.get("name", "")` for a selected list element; raises
(`AttributeError`) unless `a` is a dict. -/
def nameOf (v : JVal) : Except Unit String :=
  match v with
  | .obj fs => .ok (getNameD fs)
  | _ => .error ()

/-- The generator `a.get("name", "") for a in data["author"] if "name" in a`
(lines 527-529), collecting the selected names or raising. -/
def collectNames : List JVal → Except Unit (List String)
  | [] => .ok []
  | a :: r =>
    if hasNameKey a then do
      let n ← nameOf a
      let rest ← collectNames r
      pure (n :: rest)
    else collectNames r

/-- Effect of one parsed JSON-LD script on the `author` variable
(lines 525-531): `none` = the variable is untouched, `some (.error _)` = the
block raises (swallowed by `except: pass`), `some (.ok s)` = assigned. -/
def scriptAuthor (v : JVal) : Option (Except Unit String) :=
  match v with
  | .obj fs =>
    match jlookup fs "author" with
    | none => none
    | some (.arr xs) => some ((collectNames xs).map (String.intercalate ", "))
    | some (.obj afs) => some (.ok (getNameD afs))
    | some (.str _) => some (.error ())
  | _ => none

/-- The `for n in tree.css("script[type='application/ld+json']")` loop body
with its `try/except: pass` (lines 522-533); a parse failure or a raising
block keeps the previous value. -/
def authorStep (acc : String) (scr : Except Unit JVal) : String :=
  match scr with
  | .error _ => acc
  | .ok v =>
    match scriptAuthor v with
    | none => acc
    | some (.ok s) => s
    | some (.error _) => acc

/-- The author resolution of `extract_metadata` (lines 518-543): JSON-LD
scripts first, then the author meta tag, then the byline element with
`"By "` removed.  `metaAuthor` is the meta tag's `content` attribute when
the tag exists; `byline` is the byline element's text when one exists. -/
def resolveAuthor (scripts : List (Except Unit JVal))
    (metaAuthor byline : Option String) : String :=
  let a := scripts.foldl authorStep ""
  let a :=
    if a = "" then
      match metaAuthor with
      | some m => m
      | none => a
    else a
  if a = "" then
    match byline with
    | some t => t.replace "By " ""
    | none => a
  else a

/-! ### Orchestrator admission gate (`crawl_site`, lines 825-891) -/

/-- One candidate article's path through `crawl_site` up to the `upsert_post`
call: `none` models a failed `crawl_article`; otherwise the raw text is the
fetched markdown or, when that is empty, `strip_html_basic` of the HTML
(`res.markdown or strip_html_basic(html)`), and the candidate is handed to
persistence iff the stripped raw text and the stripped cleaned text both
have length at least 50.  `cleaner` is the selected extraction strategy and
`sb` the basic fallback, both already specialised to their oracles. -/
def processCandidate (cleaner sb : String → String) :
    Option (String × String) → Bool
  | none => false
  | some (html, markdown) =>
    let raw := if markdown = "" then sb html else markdown
    if (pyStrip raw).length < 50 then false
    else
      let cleaned := cleaner html
      if (pyStrip cleaned).length < 50 then false
      else true

/-! ### Invariants of the frontier state -/

/-- Facts true of every URL the loop collects as an article: it was not
section-labelled, passed an article rule, survived the hard-exclusion
filter and lies on the crawl domain. -/
def ArticleProps (domain u : String) : Prop :=
  softExcluded u = false ∧ isArticleUrl u = true ∧
  hardExcluded u = false ∧ netloc u = domain

/-- The frontier invariant behind claims C1/C3/C4/C6: visited is
duplicate-free and within the page budget, the accumulator is
duplicate-free and within the article budget, every fetched URL was first
marked visited (and vice versa), and collected articles satisfy
`ArticleProps`. -/
def DiscInv (domain : String) (maxPages maxArticles : Nat)
    (st : DiscState) : Prop :=
  st.visited.Nodup ∧ st.visited.length ≤ maxPages ∧
  st.articles.length ≤ maxArticles ∧ st.articles.Nodup ∧
  st.fetchLog = st.visited ∧
  ∀ u ∈ st.articles, ArticleProps domain u

/-- No hard-excluded URL anywhere in the frontier: not pending, not
visited, never appended to the queue, never fetched. -/
def HardFree (st : DiscState) : Prop :=
  (∀ u ∈ st.queue, hardExcluded u = false) ∧
  (∀ u ∈ st.visited, hardExcluded u = false) ∧
  (∀ u ∈ st.enqLog, hardExcluded u = false) ∧
  (∀ u ∈ st.fetchLog, hardExcluded u = false)

/-! ### Concrete sites used by the counterexamples and witnesses -/

/-- A site whose front page links two pages `a`, `b`, where page `a` links
`b` again; `b` is rediscovered before it is dequeued. -/
def rediscoveryOracle : String → Option (List String) := fun u =>
  if u = "http://site.com/" then some ["http://site.com/a", "http://site.com/b"]
  else if u = "http://site.com/a" then some ["http://site.com/b"]
  else none

/-- First article of the two-article site. -/
def artOne : String := "http://s.com/2024/01/26/first-long-article"

/-- Second article of the two-article site. -/
def artTwo : String := "http://s.com/2024/01/27/second-long-article"

/-- A site whose front page links two dated article pages. -/
def twoArticleOracle : String → Option (List String) := fun u =>
  if u = "http://s.com/" then some [artOne, artTwo] else none

/-- A dated article URL followed, on the same page, by a section link. -/
def breakArt : String := "http://s.com/2024/01/26/big-long-story-here"

/-- A site whose front page lists an article link and then a `/news/`
section link; with an article budget of 1 the scan breaks between them. -/
def breakOracle : String → Option (List String) := fun u =>
  if u = "http://s.com/" then some [breakArt, "http://s.com/news/"] else none

/-- A hard-excluded start URL (an author page) that links back to itself. -/
def selfLinkStart : String := "http://q.com/author/"

/-- The site for the hard-excluded seed counterexample. -/
def selfLinkOracle : String → Option (List String) := fun u =>
  if u = selfLinkStart then some [selfLinkStart, "http://q.com/x"] else none

/-- A site whose front page lists a hard-excluded pagination link. -/
def paginationOracle : String → Option (List String) := fun u =>
  if u = "http://site.com/" then
    some ["http://site.com/page/3", "http://site.com/a"]
  else none

/-! ### Concrete pipeline inputs for the manual-strategy layout claim -/

/-- Three qualifying paragraphs (length ≥ 3, no boilerplate phrase, not
starting with a bare URL), in document order. -/
def headlineDoc : List (String × String) :=
  [("p", "First paragraph text here."), ("p", "Second paragraph follows."),
   ("p", "Third paragraph closes it.")]

/-- An oracle whose parser finds the container as-is and reports one `h1`
heading plus the three paragraphs of `headlineDoc`. -/
def headlineOps : HtmlOps :=
  { container := fun s => .ok (some s),
    docElems := fun _ => .ok (some "The Big Headline", headlineDoc),
    basicTexts := fun _ => .ok [], llm := fun _ => .error (),
    artifacts := fun s => s }

/-! ### Concrete admission-gate and author inputs -/

/-- A 49-character cleaned text (whitespace-free, so stripping keeps it). -/
def chars49 : String := ⟨List.replicate 49 'a'⟩

/-- A 50-character cleaned text. -/
def chars50 : String := ⟨List.replicate 50 'a'⟩

/-- A 60-character raw text, comfortably above the admission threshold. -/
def chars60 : String := ⟨List.replicate 60 'r'⟩

/-- JSON-LD structured data with a single author object. -/
def janeAuthorLd : JVal := .obj [("author", .obj [("name", .str "Jane Doe")])]

/-- JSON-LD structured data with a list of two author objects. -/
def twoAuthorLd : JVal :=
  .obj [("author", .arr [.obj [("name", .str "Jane Doe")],
                         .obj [("name", .str "John Smith")]])]

/-! ### Concrete link-extractor instance for the same-origin witness -/

/-- A resolver that concatenates the href onto the base URL. -/
def appendResolver : String → String → String := fun b h => b ++ h

/-- Absoluteness test used in the witness: the URL carries an explicit
`http://` scheme. -/
def httpAbs : String → Bool := fun u => isPre "http://".data u.data

/-- Hrefs of the witness page: two good links (one repeated), a denylisted
one and an anchor without `href`. -/
def witnessHrefs : List (Option String) :=
  [some "a", some "login-page", none, some "a", some "b"]

/-! ## Theorems -/

/-! ### Per-link step lemmas -/

theorem procStep_visited (d : String) (mA : Nat) (st : DiscState) (l : String) :
    ((procStep d mA st l).1).visited = st.visited ∧
    ((procStep d mA st l).1).fetchLog = st.fetchLog := by
  by_cases h1 : netloc l = d <;>
  by_cases h2 : hardExcluded l = true <;>
  by_cases hv : l ∈ st.visited <;>
  by_cases h3 : softExcluded l = false ∧ isArticleUrl l = true ∧ l ∉ st.articles <;>
  by_cases h4 : mA ≤ st.articles.length + 1 <;>
  simp [procStep, h1, h2, hv, h3, h4, enq, addArt]

theorem procStep_articles (d : String) (mA : Nat) (st : DiscState) (l : String) :
    ((procStep d mA st l).1).articles = st.articles ∨
    (((procStep d mA st l).1).articles = st.articles ++ [l] ∧
      l ∉ st.articles ∧ softExcluded l = false ∧ isArticleUrl l = true ∧
      hardExcluded l = false ∧ netloc l = d) := by
  by_cases h1 : netloc l = d <;>
  by_cases h2 : hardExcluded l = true <;>
  by_cases hv : l ∈ st.visited <;>
  by_cases h3 : softExcluded l = false ∧ isArticleUrl l = true ∧ l ∉ st.articles <;>
  by_cases h4 : mA ≤ st.articles.length + 1 <;>
  simp [procStep, h1, h2, hv, h3, h4, enq, addArt]

theorem procStep_enq (d : String) (mA : Nat) (st : DiscState) (l : String) :
    (((procStep d mA st l).1).queue = st.queue ∧
     ((procStep d mA st l).1).enqLog = st.enqLog) ∨
    (((procStep d mA st l).1).queue = st.queue ++ [l] ∧
     ((procStep d mA st l).1).enqLog = st.enqLog ++ [l] ∧
     hardExcluded l = false ∧ netloc l = d ∧ l ∉ st.visited) := by
  by_cases h1 : netloc l = d <;>
  by_cases h2 : hardExcluded l = true <;>
  by_cases hv : l ∈ st.visited <;>
  by_cases h3 : softExcluded l = false ∧ isArticleUrl l = true ∧ l ∉ st.articles <;>
  by_cases h4 : mA ≤ st.articles.length + 1 <;>
  simp [procStep, h1, h2, hv, h3, h4, enq, addArt]

theorem procStep_enq_pos (d : String) (mA : Nat) (st : DiscState) (l : String)
    (hn : netloc l = d) (hh : hardExcluded l = false) (hv : l ∉ st.visited) :
    ((procStep d mA st l).1).enqLog = st.enqLog ++ [l] := by
  by_cases h3 : softExcluded l = false ∧ isArticleUrl l = true ∧ l ∉ st.articles <;>
  by_cases h4 : mA ≤ st.articles.length + 1 <;>
  simp [procStep, hn, hh, hv, h3, h4, enq, addArt]

theorem procStep_len (d : String) (mA : Nat) (st : DiscState) (l : String)
    (h : st.articles.length < mA) :
    ((procStep d mA st l).2 = true →
      ((procStep d mA st l).1).articles.length ≤ mA) ∧
    ((procStep d mA st l).2 = false →
      ((procStep d mA st l).1).articles.length < mA) := by
  by_cases h1 : netloc l = d <;>
  by_cases h2 : hardExcluded l = true <;>
  by_cases hv : l ∈ st.visited <;>
  by_cases h3 : softExcluded l = false ∧ isArticleUrl l = true ∧ l ∉ st.articles <;>
  by_cases h4 : mA ≤ st.articles.length + 1 <;>
  simp [procStep, h1, h2, hv, h3, h4, enq, addArt] <;>
  omega

/-! ### Link-scan (`procLinks`) lemmas -/

theorem procLinks_visited (d : String) (mA : Nat) (ls : List String)
    (st : DiscState) :
    ((procLinks d mA ls st).1).visited = st.visited ∧
    ((procLinks d mA ls st).1).fetchLog = st.fetchLog := by
  induction ls generalizing st with
  | nil => exact ⟨rfl, rfl⟩
  | cons l rest ih =>
    have hs := procStep_visited d mA st l
    simp only [procLinks]
    rcases hp : procStep d mA st l with ⟨st', b⟩
    rw [hp] at hs
    cases b
    · have hrec := ih st'
      exact ⟨hrec.1.trans hs.1, hrec.2.trans hs.2⟩
    · exact hs

theorem procLinks_enq (d : String) (mA : Nat) (ls : List String)
    (st : DiscState) :
    ∃ t, ((procLinks d mA ls st).1).queue = st.queue ++ t ∧
         ((procLinks d mA ls st).1).enqLog = st.enqLog ++ t ∧
         ∀ u ∈ t, hardExcluded u = false ∧ netloc u = d := by
  induction ls generalizing st with
  | nil => exact ⟨[], by simp [procLinks], by simp [procLinks], by simp⟩
  | cons l rest ih =>
    have hs := procStep_enq d mA st l
    simp only [procLinks]
    rcases hp : procStep d mA st l with ⟨st', b⟩
    rw [hp] at hs
    cases b
    · obtain ⟨t, h1, h2, h3⟩ := ih st'
      rcases hs with ⟨hq, he⟩ | ⟨hq, he, hh, hn, _⟩
      · exact ⟨t, by rw [h1, hq], by rw [h2, he], h3⟩
      · refine ⟨l :: t, ?_, ?_, ?_⟩
        · rw [h1, hq, List.append_assoc]; rfl
        · rw [h2, he, List.append_assoc]; rfl
        · intro u hu
          rcases List.mem_cons.mp hu with rfl | hu
          · exact ⟨hh, hn⟩
          · exact h3 u hu
    · rcases hs with ⟨hq, he⟩ | ⟨hq, he, hh, hn, _⟩
      · exact ⟨[], by simpa using hq, by simpa using he, by simp⟩
      · refine ⟨[l], by simpa using hq, by simpa using he, ?_⟩
        intro u hu
        rcases List.mem_singleton.mp hu with rfl
        exact ⟨hh, hn⟩

theorem procLinks_articles_mem (d : String) (mA : Nat) (ls : List String)
    (st : DiscState) :
    ∀ u ∈ ((procLinks d mA ls st).1).articles,
      u ∈ st.articles ∨ ArticleProps d u := by
  induction ls generalizing st with
  | nil => intro u hu; exact Or.inl hu
  | cons l rest ih =>
    have hs := procStep_articles d mA st l
    simp only [procLinks]
    rcases hp : procStep d mA st l with ⟨st', b⟩
    rw [hp] at hs
    cases b
    · intro u hu
      rcases ih st' u hu with hu' | hu'
      · rcases hs with ha | ⟨ha, _, hsoft, hart, hhard, hnet⟩
        · exact Or.inl (ha ▸ hu')
        · rw [ha] at hu'
          rcases List.mem_append.mp hu' with h | h
          · exact Or.inl h
          · rcases List.mem_singleton.mp h with rfl
            exact Or.inr ⟨hsoft, hart, hhard, hnet⟩
      · exact Or.inr hu'
    · intro u hu
      rcases hs with ha | ⟨ha, _, hsoft, hart, hhard, hnet⟩
      · exact Or.inl (ha ▸ hu)
      · rw [ha] at hu
        rcases List.mem_append.mp hu with h | h
        · exact Or.inl h
        · rcases List.mem_singleton.mp h with rfl
          exact Or.inr ⟨hsoft, hart, hhard, hnet⟩

theorem procLinks_articles_nodup (d : String) (mA : Nat) (ls : List String)
    (st : DiscState) (h : st.articles.Nodup) :
    ((procLinks d mA ls st).1).articles.Nodup := by
  induction ls generalizing st with
  | nil => exact h
  | cons l rest ih =>
    have hs := procStep_articles d mA st l
    simp only [procLinks]
    rcases hp : procStep d mA st l with ⟨st', b⟩
    rw [hp] at hs
    have hnd : st'.articles.Nodup := by
      rcases hs with ha | ⟨ha, hnew, _⟩
      · rw [ha]; exact h
      · rw [ha]; simp [List.nodup_append, h, hnew]
    cases b
    · exact ih st' hnd
    · exact hnd

theorem procLinks_len (d : String) (mA : Nat) (ls : List String)
    (st : DiscState) (h : st.articles.length < mA) :
    ((procLinks d mA ls st).1).articles.length ≤ mA := by
  induction ls generalizing st with
  | nil => exact h.le
  | cons l rest ih =>
    have hl := procStep_len d mA st l h
    simp only [procLinks]
    rcases hp : procStep d mA st l with ⟨st', b⟩
    rw [hp] at hl
    cases b
    · exact ih st' (by simpa using hl.2 rfl)
    · simpa using hl.1 rfl

theorem procLinks_append (d : String) (mA : Nat) (pre tail : List String)
    (st : DiscState) (hb : (procLinks d mA pre st).2 = false) :
    procLinks d mA (pre ++ tail) st =
      procLinks d mA tail (procLinks d mA pre st).1 := by
  induction pre generalizing st with
  | nil => rfl
  | cons x pre ih =>
    simp only [procLinks, List.cons_append] at hb ⊢
    rcases hp : procStep d mA st x with ⟨st', b⟩
    rw [hp] at hb
    cases b
    · exact ih st' hb
    · exact Bool.noConfusion hb

theorem procLinks_no_break_enqueues (d : String) (mA : Nat)
    (ls : List String) (st : DiscState)
    (hb : (procLinks d mA ls st).2 = false) :
    ∀ l ∈ ls, netloc l = d → hardExcluded l = false → l ∉ st.visited →
      l ∈ ((procLinks d mA ls st).1).enqLog := by
  induction ls generalizing st with
  | nil => intro l hl; cases hl
  | cons x rest ih =>
    intro l hl hn hh hv
    simp only [procLinks] at hb ⊢
    rcases hp : procStep d mA st x with ⟨st', b⟩
    rw [hp] at hb
    cases b
    · have hb' : (procLinks d mA rest st').2 = false := hb
      rcases List.mem_cons.mp hl with rfl | hl
      · have he : st'.enqLog = st.enqLog ++ [l] := by
          have h0 := procStep_enq_pos d mA st l hn hh hv
          rw [hp] at h0
          exact h0
        obtain ⟨t, _, h2, _⟩ := procLinks_enq d mA rest st'
        show l ∈ (procLinks d mA rest st').1.enqLog
        rw [h2, he]
        simp
      · have hv' : l ∉ st'.visited := by
          have h0 := procStep_visited d mA st x
          rw [hp] at h0
          rw [h0.1]
          exact hv
        show l ∈ (procLinks d mA rest st').1.enqLog
        exact ih st' hb' l hl hn hh hv'
    · exact Bool.noConfusion hb

/-! ### Loop (`discLoop`) invariant lemmas -/

theorem procLinks_inv (d : String) (maxP mA : Nat) (ls : List String)
    (st : DiscState) (h : DiscInv d maxP mA st)
    (hlen : st.articles.length < mA) :
    DiscInv d maxP mA (procLinks d mA ls st).1 := by
  obtain ⟨hn, hvlen, _, hand, hfe, hprops⟩ := h
  obtain ⟨hveq, hfeq⟩ := procLinks_visited d mA ls st
  refine ⟨by rw [hveq]; exact hn, by rw [hveq]; exact hvlen,
    procLinks_len d mA ls st hlen, procLinks_articles_nodup d mA ls st hand,
    by rw [hfeq, hveq]; exact hfe, ?_⟩
  intro u hu
  rcases procLinks_articles_mem d mA ls st u hu with h' | h'
  · exact hprops u h'
  · exact h'

theorem procLinks_hardFree (d : String) (mA : Nat) (ls : List String)
    (st : DiscState) (h : HardFree st) : HardFree (procLinks d mA ls st).1 := by
  obtain ⟨hq, hv, he, hf⟩ := h
  obtain ⟨hveq, hfeq⟩ := procLinks_visited d mA ls st
  obtain ⟨t, h1, h2, h3⟩ := procLinks_enq d mA ls st
  refine ⟨?_, ?_, ?_, ?_⟩
  · intro u hu
    rw [h1] at hu
    rcases List.mem_append.mp hu with h' | h'
    · exact hq u h'
    · exact (h3 u h').1
  · intro u hu
    rw [hveq] at hu
    exact hv u hu
  · intro u hu
    rw [h2] at hu
    rcases List.mem_append.mp hu with h' | h'
    · exact he u h'
    · exact (h3 u h').1
  · intro u hu
    rw [hfeq] at hu
    exact hf u hu

theorem discLoop_inv (oracle : String → Option (List String)) (d : String)
    (maxP maxA : Nat) (fuel : Nat) (st : DiscState)
    (h : DiscInv d maxP maxA st) :
    DiscInv d maxP maxA (discLoop oracle d maxP maxA fuel st) := by
  induction fuel generalizing st with
  | zero => exact h
  | succ fuel ih =>
    rcases hq : st.queue with _ | ⟨url, rest⟩
    · simp only [discLoop, hq]
      exact h
    · simp only [discLoop, hq]
      by_cases hg : st.visited.length < maxP ∧ st.articles.length < maxA
      · rw [if_pos hg]
        by_cases hv : url ∈ st.visited
        · rw [if_pos hv]
          exact ih _ h
        · rw [if_neg hv]
          have h1 : DiscInv d maxP maxA
              { st with queue := rest, visited := st.visited ++ [url],
                        fetchLog := st.fetchLog ++ [url] } := by
            obtain ⟨hn, hlen, halen, hand, hfe, hprops⟩ := h
            refine ⟨?_, ?_, halen, hand, ?_, hprops⟩
            · simp [List.nodup_append, hn, hv]
            · simp only [List.length_append, List.length_singleton]
              omega
            · simp only []
              rw [hfe]
          cases ho : oracle url with
          | none => exact ih _ h1
          | some links =>
            exact ih _ (procLinks_inv d maxP maxA links _ h1 (by exact hg.2))
      · rw [if_neg hg]
        exact h

theorem discLoop_hardFree (oracle : String → Option (List String))
    (d : String) (maxP maxA : Nat) (fuel : Nat) (st : DiscState)
    (h : HardFree st) : HardFree (discLoop oracle d maxP maxA fuel st) := by
  induction fuel generalizing st with
  | zero => exact h
  | succ fuel ih =>
    rcases hq : st.queue with _ | ⟨url, rest⟩
    · simp only [discLoop, hq]
      exact h
    · simp only [discLoop, hq]
      obtain ⟨hqf, hvf, hef, hff⟩ := h
      have hrest : ∀ u ∈ rest, hardExcluded u = false := by
        intro u hu
        exact hqf u (hq ▸ List.mem_cons_of_mem url hu)
      have hurl : hardExcluded url = false :=
        hqf url (hq ▸ List.mem_cons_self url rest)
      by_cases hg : st.visited.length < maxP ∧ st.articles.length < maxA
      · rw [if_pos hg]
        by_cases hv : url ∈ st.visited
        · rw [if_pos hv]
          exact ih _ ⟨hrest, hvf, hef, hff⟩
        · rw [if_neg hv]
          have h1 : HardFree
              { st with queue := rest, visited := st.visited ++ [url],
                        fetchLog := st.fetchLog ++ [url] } := by
            refine ⟨hrest, ?_, hef, ?_⟩
            · intro u hu
              rcases List.mem_append.mp hu with h' | h'
              · exact hvf u h'
              · rcases List.mem_singleton.mp h' with rfl
                exact hurl
            · intro u hu
              rcases List.mem_append.mp hu with h' | h'
              · exact hff u h'
              · rcases List.mem_singleton.mp h' with rfl
                exact hurl
          cases ho : oracle url with
          | none => exact ih _ h1
          | some links => exact ih _ (procLinks_hardFree d maxA links _ h1)
      · rw [if_neg hg]
        exact ⟨hqf, hvf, hef, hff⟩

theorem discoverState_inv (oracle : String → Option (List String))
    (start : String) (maxPages maxArticles : Nat) (fuel : Nat) :
    DiscInv (netloc start) maxPages maxArticles
      (discoverState oracle start maxPages maxArticles fuel) := by
  apply discLoop_inv
  exact ⟨List.nodup_nil, by simp [initState], by simp [initState],
    List.nodup_nil, rfl, by simp [initState]⟩

/-! ### Claim C1: discovery budgets -/

/-- C1: for every start URL, budgets, page-link oracle, set-iteration order
and iteration bound, discovery marks at most `maxPages` distinct URLs
visited (the visited list is duplicate-free and within the page budget) and
returns at most `maxArticles` article URLs. -/
theorem discovery_respects_budgets (oracle : String → Option (List String))
    (start : String) (maxPages maxArticles : Nat)
    (setOrder : List String → List String) (fuel : Nat) :
    (discoverState oracle start maxPages maxArticles fuel).visited.Nodup ∧
    (discoverState oracle start maxPages maxArticles fuel).visited.length ≤
      maxPages ∧
    (discover oracle start maxPages maxArticles setOrder fuel).length ≤
      maxArticles := by
  obtain ⟨h1, h2, _⟩ := discoverState_inv oracle start maxPages maxArticles fuel
  exact ⟨h1, h2, List.length_take_le _ _⟩

/-- C1 witness: the budgets hold on the concrete two-article site. -/
theorem discovery_respects_budgets_witness :
    (discoverState twoArticleOracle "http://s.com/" 10 10 8).visited.Nodup ∧
    (discoverState twoArticleOracle "http://s.com/" 10 10 8).visited.length ≤ 10 ∧
    (discover twoArticleOracle "http://s.com/" 10 10 List.reverse 8).length ≤ 10 :=
  discovery_respects_budgets twoArticleOracle "http://s.com/" 10 10
    List.reverse 8

/-! ### Claim C3: order of the returned article list -/

/-- C3 counterexample: the accumulator collects `artOne` before `artTwo`
(discovery order), but the returned list — built from a Python `set` whose
iteration order is unspecified, here instantiated to reversal — is not in
discovery order. -/
theorem discovery_order_counterexample :
    (discoverState twoArticleOracle "http://s.com/" 10 10 8).articles =
      [artOne, artTwo] ∧
    discover twoArticleOracle "http://s.com/" 10 10 List.reverse 8 =
      [artTwo, artOne] ∧
    discover twoArticleOracle "http://s.com/" 10 10 List.reverse 8 ≠
      [artOne, artTwo] := by
  refine ⟨by decide, by decide, by decide⟩

/-- C3 amended: for every set-iteration order (any permutation of the
accumulator), discovery returns exactly the collected article URLs — the
truncation to the budget never drops one, because the accumulator never
exceeds the budget — but in an unspecified order (a permutation of the
accumulator), not necessarily discovery order. -/
theorem discovery_returns_collected_articles
    (oracle : String → Option (List String)) (start : String)
    (maxPages maxArticles : Nat) (setOrder : List String → List String)
    (fuel : Nat) (hperm : ∀ l : List String, (setOrder l).Perm l) :
    (discover oracle start maxPages maxArticles setOrder fuel).Perm
      (discoverState oracle start maxPages maxArticles fuel).articles := by
  obtain ⟨_, _, hlen, _⟩ := discoverState_inv oracle start maxPages maxArticles fuel
  have heq : (setOrder (discoverState oracle start maxPages maxArticles
      fuel).articles).take maxArticles =
      setOrder (discoverState oracle start maxPages maxArticles fuel).articles := by
    apply List.take_of_length_le
    rw [(hperm _).length_eq]
    exact hlen
  rw [discover, heq]
  exact hperm _

/-- C3 amended, witness: on the two-article site with reversal as the set
order, the returned list is a permutation of the accumulator. -/
theorem discovery_returns_collected_articles_witness :
    (discover twoArticleOracle "http://s.com/" 10 10 List.reverse 8).Perm
      (discoverState twoArticleOracle "http://s.com/" 10 10 8).articles :=
  discovery_returns_collected_articles twoArticleOracle "http://s.com/" 10 10
    List.reverse 8 (fun l => l.reverse_perm)

/-! ### Claim C4: single enqueue -/

/-- C4 counterexample: on a site where page `a` links `b` after the front
page already enqueued `b`, the URL `b` is appended to the pending queue
twice before being dequeued — the enqueue history is not duplicate-free. -/
theorem enqueued_twice_counterexample :
    (discoverState rediscoveryOracle "http://site.com/" 10 10 8).enqLog.count
      "http://site.com/b" = 2 ∧
    ¬ (discoverState rediscoveryOracle "http://site.com/" 10 10 8).enqLog.Nodup := by
  refine ⟨by decide, by decide⟩

/-- C4 amended: a URL can be appended to the queue several times (the code
only checks the visited set, not the queue), but every URL is dequeued-and-
processed at most once: the fetch history equals the visited list, which is
duplicate-free. -/
theorem url_fetched_at_most_once (oracle : String → Option (List String))
    (start : String) (maxPages maxArticles : Nat) (fuel : Nat) :
    (discoverState oracle start maxPages maxArticles fuel).fetchLog =
      (discoverState oracle start maxPages maxArticles fuel).visited ∧
    (discoverState oracle start maxPages maxArticles fuel).fetchLog.Nodup := by
  obtain ⟨h1, _, _, _, h5, _⟩ :=
    discoverState_inv oracle start maxPages maxArticles fuel
  exact ⟨h5, h5 ▸ h1⟩

/-- C4 amended, witness: on the rediscovery site the fetch history equals
the duplicate-free visited list even though the enqueue history repeats. -/
theorem url_fetched_at_most_once_witness :
    (discoverState rediscoveryOracle "http://site.com/" 10 10 8).fetchLog =
      (discoverState rediscoveryOracle "http://site.com/" 10 10 8).visited ∧
    (discoverState rediscoveryOracle "http://site.com/" 10 10 8).fetchLog.Nodup :=
  url_fetched_at_most_once rediscoveryOracle "http://site.com/" 10 10 8

/-! ### Claim C5: hard-excluded links -/

/-- C5 counterexample: when the start URL itself matches a hard-exclusion
pattern (an author page) and is rediscovered as a link on its own page, that
discovered hard-excluded link is nonetheless in the visited set and was
fetched — the seed enters the frontier unconditionally. -/
theorem hard_excluded_seed_counterexample :
    hardExcluded selfLinkStart = true ∧
    selfLinkOracle selfLinkStart = some [selfLinkStart, "http://q.com/x"] ∧
    selfLinkStart ∈
      (discoverState selfLinkOracle selfLinkStart 10 10 8).visited ∧
    selfLinkStart ∈
      (discoverState selfLinkOracle selfLinkStart 10 10 8).fetchLog := by
  refine ⟨by decide, by decide, by decide, by decide⟩

/-- C5 amended: provided the start URL is not itself hard-excluded, a URL
matching a hard-exclusion pattern is never visited, never pending, never
appended to the queue and never fetched. -/
theorem hard_excluded_never_touched (oracle : String → Option (List String))
    (start : String) (maxPages maxArticles : Nat) (fuel : Nat) (u : String)
    (hstart : hardExcluded start = false) (hu : hardExcluded u = true) :
    u ∉ (discoverState oracle start maxPages maxArticles fuel).visited ∧
    u ∉ (discoverState oracle start maxPages maxArticles fuel).queue ∧
    u ∉ (discoverState oracle start maxPages maxArticles fuel).enqLog ∧
    u ∉ (discoverState oracle start maxPages maxArticles fuel).fetchLog := by
  have h0 : HardFree (initState start) := by
    refine ⟨?_, by simp [initState], by simp [initState], by simp [initState]⟩
    intro v hv
    rcases List.mem_singleton.mp hv with rfl
    exact hstart
  have h := discLoop_hardFree oracle (netloc start) maxPages maxArticles fuel
    (initState start) h0
  obtain ⟨hq, hv, he, hf⟩ := h
  refine ⟨fun hm => ?_, fun hm => ?_, fun hm => ?_, fun hm => ?_⟩
  · rw [hv u hm] at hu
    exact Bool.noConfusion hu
  · rw [hq u hm] at hu
    exact Bool.noConfusion hu
  · rw [he u hm] at hu
    exact Bool.noConfusion hu
  · rw [hf u hm] at hu
    exact Bool.noConfusion hu

/-- C5 amended, witness: on a site whose front page lists the pagination
link `/page/3`, that hard-excluded link is never visited, pending, enqueued
or fetched. -/
theorem hard_excluded_never_touched_witness :
    hardExcluded "http://site.com/" = false ∧
    hardExcluded "http://site.com/page/3" = true ∧
    "http://site.com/page/3" ∉
      (discoverState paginationOracle "http://site.com/" 10 10 8).visited ∧
    "http://site.com/page/3" ∉
      (discoverState paginationOracle "http://site.com/" 10 10 8).enqLog := by
  have h := hard_excluded_never_touched paginationOracle "http://site.com/"
    10 10 8 "http://site.com/page/3" (by decide) (by decide)
  exact ⟨by decide, by decide, h.1, h.2.2.1⟩

/-! ### Claim C6: soft-excluded links -/

/-- C6 counterexample: `/news/` is soft-excluded, not hard-excluded, on the
crawl domain, unvisited, and is discovered on the fetched front page — yet
it is never enqueued, because the article budget is reached by the earlier
link on the same page and the `break` abandons the rest of the scan. -/
theorem soft_link_not_enqueued_counterexample :
    softExcluded "http://s.com/news/" = true ∧
    hardExcluded "http://s.com/news/" = false ∧
    netloc "http://s.com/news/" = netloc "http://s.com/" ∧
    breakOracle "http://s.com/" = some [breakArt, "http://s.com/news/"] ∧
    "http://s.com/" ∈ (discoverState breakOracle "http://s.com/" 10 1 8).fetchLog ∧
    "http://s.com/news/" ∉
      (discoverState breakOracle "http://s.com/" 10 1 8).enqLog ∧
    "http://s.com/news/" ∉
      (discoverState breakOracle "http://s.com/" 10 1 8).queue ∧
    "http://s.com/news/" ∉
      (discoverState breakOracle "http://s.com/" 10 1 8).visited := by
  refine ⟨by decide, by decide, by decide, by decide, by decide, by decide,
    by decide, by decide⟩

theorem procLinks_reached_enqueues (d : String) (mA : Nat)
    (pre post : List String) (st : DiscState) (l : String)
    (hb : (procLinks d mA pre st).2 = false) (hn : netloc l = d)
    (hh : hardExcluded l = false) (hv : l ∉ st.visited) :
    l ∈ ((procLinks d mA (pre ++ l :: post) st).1).enqLog := by
  rw [procLinks_append d mA pre (l :: post) st hb]
  have hv1 : l ∉ ((procLinks d mA pre st).1).visited := by
    rw [(procLinks_visited d mA pre st).1]
    exact hv
  simp only [procLinks]
  rcases hp : procStep d mA (procLinks d mA pre st).1 l with ⟨st2, b⟩
  have he : st2.enqLog = ((procLinks d mA pre st).1).enqLog ++ [l] := by
    have h0 := procStep_enq_pos d mA (procLinks d mA pre st).1 l hn hh hv1
    rw [hp] at h0
    exact h0
  cases b
  · obtain ⟨t, _, h2, _⟩ := procLinks_enq d mA post st2
    show l ∈ (procLinks d mA post st2).1.enqLog
    rw [h2, he]
    simp
  · show l ∈ st2.enqLog
    rw [he]
    simp

/-- C6 amended: a soft-excluded link is never added to the article
accumulator (indeed nothing soft-excluded ever is); and every same-domain,
non-hard-excluded, unvisited link the scan reaches — soft-excluded ones
included — is appended to the queue: it is enqueued unless the
article-budget `break` was triggered by an earlier link of the same page
(the hypothesis says only that scanning the links before it did not
break; the link itself or any later link may trigger the break). -/
theorem soft_links_enqueued_never_articles :
    (∀ (oracle : String → Option (List String)) (start : String)
       (maxPages maxArticles fuel : Nat) (u : String),
       u ∈ (discoverState oracle start maxPages maxArticles fuel).articles →
       softExcluded u = false) ∧
    (∀ (d : String) (mA : Nat) (pre post : List String) (st : DiscState)
       (l : String), (procLinks d mA pre st).2 = false →
       netloc l = d → hardExcluded l = false → l ∉ st.visited →
       l ∈ ((procLinks d mA (pre ++ l :: post) st).1).enqLog) := by
  constructor
  · intro oracle start maxPages maxArticles fuel u hu
    obtain ⟨_, _, _, _, _, hprops⟩ :=
      discoverState_inv oracle start maxPages maxArticles fuel
    exact (hprops u hu).1
  · intro d mA pre post st l hb hn hh hv
    exact procLinks_reached_enqueues d mA pre post st l hb hn hh hv

/-- C6 amended, witness: on a page listing the section link `/news/` before
a budget-filling article link, the scan does break — at the later article
link — yet the soft link, reached first, is enqueued; and the article
collected on the two-article site is not soft-excluded. -/
theorem soft_links_enqueued_never_articles_witness :
    (procLinks "s.com" 1 ["http://s.com/news/", breakArt]
      (initState "http://s.com/")).2 = true ∧
    "http://s.com/news/" ∈
      ((procLinks "s.com" 1 ["http://s.com/news/", breakArt]
        (initState "http://s.com/")).1).enqLog ∧
    softExcluded artOne = false := by
  refine ⟨by decide, ?_, ?_⟩
  · exact soft_links_enqueued_never_articles.2 "s.com" 1 [] [breakArt]
      (initState "http://s.com/") "http://s.com/news/"
      (by decide) (by decide) (by decide) (by decide)
  · exact soft_links_enqueued_never_articles.1 twoArticleOracle
      "http://s.com/" 10 10 8 artOne (by decide)

/-! ### Claim C2: the extraction pipeline never raises -/

theorem strip_html_basic_ok (o : HtmlOps) (html : String) :
    ∃ s, strip_html_basic o html = Except.ok s := by
  unfold strip_html_basic
  cases h : o.basicTexts (basicStrip html) with
  | ok ts => exact ⟨_, rfl⟩
  | error e => exact ⟨"", rfl⟩

theorem extract_article_content_ok (o : HtmlOps) (html : String) :
    ∃ s, extract_article_content o html = Except.ok s := by
  unfold extract_article_content
  cases h : o.container html with
  | ok v =>
    cases v with
    | some ah => exact ⟨_, rfl⟩
    | none => exact strip_html_basic_ok o html
  | error e => exact strip_html_basic_ok o html

theorem manual_clean_ok (o : HtmlOps) (html : String) :
    ∃ s, manual_clean o html = Except.ok s := by
  unfold manual_clean
  cases h : manualBody o html with
  | ok s => exact ⟨s, rfl⟩
  | error e => exact strip_html_basic_ok o html

theorem gpt_clean_ok (o : HtmlOps) (html : String) :
    ∃ s, gpt_clean o html = Except.ok s := by
  unfold gpt_clean
  cases h : gptBody o html with
  | ok s => exact ⟨s, rfl⟩
  | error e => exact strip_html_basic_ok o html

theorem cleanPipeline_ok (o : HtmlOps) (html : String) :
    ∃ s, cleanPipeline o html = Except.ok s := by
  unfold cleanPipeline USE_LLM_CLEANING
  rw [if_pos rfl]
  exact gpt_clean_ok o html

/-- C2: for every oracle behaviour (any pattern of parser and remote-service
failures) and every input HTML string, each entry point of the content
extraction pipeline — the configured pipeline, `gpt_clean`, `manual_clean`
and the `strip_html_basic` fallback — returns a value rather than raising;
and when every external operation fails, each returns the empty string, the
sole signal of total failure. -/
theorem pipeline_never_raises :
    (∀ (o : HtmlOps) (html : String),
      (∃ s, cleanPipeline o html = Except.ok s) ∧
      (∃ s, gpt_clean o html = Except.ok s) ∧
      (∃ s, manual_clean o html = Except.ok s) ∧
      (∃ s, strip_html_basic o html = Except.ok s)) ∧
    (∀ html : String,
      cleanPipeline failOps html = Except.ok "" ∧
      gpt_clean failOps html = Except.ok "" ∧
      manual_clean failOps html = Except.ok "" ∧
      strip_html_basic failOps html = Except.ok "") := by
  constructor
  · intro o html
    exact ⟨cleanPipeline_ok o html, gpt_clean_ok o html, manual_clean_ok o html,
      strip_html_basic_ok o html⟩
  · intro html
    exact ⟨rfl, rfl, rfl, rfl⟩

/-- C2 witness: on a concrete input with every external operation failing,
the pipeline and both strategies return the empty string without raising. -/
theorem pipeline_never_raises_witness :
    cleanPipeline failOps "<p>broken" = Except.ok "" ∧
    gpt_clean failOps "<p>broken" = Except.ok "" ∧
    manual_clean failOps "<p>broken" = Except.ok "" ∧
    strip_html_basic failOps "<p>broken" = Except.ok "" :=
  pipeline_never_raises.2 "<p>broken"

/-! ### Claim C7: manual-strategy output layout -/

/-- C7 (code bug): on a container with one heading and three qualifying
paragraphs, `manual_clean` does not return "heading, blank line, paragraphs
separated by blank lines": the whitespace-normalisation pass
`re.sub(r"\s+", " ", result)` (line 465) runs after the parts are joined
with blank lines and collapses every separator to a single space, so the
result is one flat line (and the following blank-line cap at line 466 can
never fire). -/
theorem manual_clean_flattens_blank_lines :
    manual_clean headlineOps "<article>Sample article</article>" =
      Except.ok ("The Big Headline First paragraph text here. " ++
        "Second paragraph follows. Third paragraph closes it.") ∧
    manual_clean headlineOps "<article>Sample article</article>" ≠
      Except.ok ("The Big Headline\n\nFirst paragraph text here.\n\n" ++
        "Second paragraph follows.\n\nThird paragraph closes it.") := by
  have hflat : manual_clean headlineOps "<article>Sample article</article>" =
      Except.ok ("The Big Headline First paragraph text here. " ++
        "Second paragraph follows. Third paragraph closes it.") := rfl
  refine ⟨hflat, fun h => ?_⟩
  rw [hflat] at h
  exact absurd (Except.ok.inj h) (by decide)

/-! ### Claim C8: admission gate -/

/-- C8: a candidate is handed to persistence only when both the stripped
raw text and the stripped cleaned text have length at least 50; a failed
fetch is never handed over; a cleaned text of stripped length 49 is
rejected while one of length 50 is accepted. -/
theorem admission_gate_boundary :
    (∀ (cleaner sb : String → String) (html markdown : String),
      processCandidate cleaner sb (some (html, markdown)) = true →
      50 ≤ (pyStrip (if markdown = "" then sb html else markdown)).length ∧
      50 ≤ (pyStrip (cleaner html)).length) ∧
    (∀ cleaner sb : String → String, processCandidate cleaner sb none = false) ∧
    processCandidate (fun _ => chars49) (fun _ => "")
      (some ("<html>", chars60)) = false ∧
    processCandidate (fun _ => chars50) (fun _ => "")
      (some ("<html>", chars60)) = true := by
  refine ⟨?_, fun _ _ => rfl, by decide, by decide⟩
  intro cleaner sb html markdown h
  simp only [processCandidate] at h
  by_cases h1 : (pyStrip (if markdown = "" then sb html else markdown)).length < 50
  · rw [if_pos h1] at h
    exact Bool.noConfusion h
  · rw [if_neg h1] at h
    by_cases h2 : (pyStrip (cleaner html)).length < 50
    · rw [if_pos h2] at h
      exact Bool.noConfusion h
    · exact ⟨Nat.le_of_not_lt h1, Nat.le_of_not_lt h2⟩

/-- C8 witness: the accepted boundary candidate indeed has stripped raw
length ≥ 50 and stripped cleaned length ≥ 50. -/
theorem admission_gate_boundary_witness :
    50 ≤ (pyStrip chars60).length ∧ 50 ≤ (pyStrip chars50).length :=
  ⟨(admission_gate_boundary.1 (fun _ => chars50) (fun _ => "") "<html>"
      chars60 (by decide)).1,
   (admission_gate_boundary.1 (fun _ => chars50) (fun _ => "") "<html>"
      chars60 (by decide)).2⟩

/-! ### Claim C9: author precedence -/

theorem resolveAuthor_of_scripts (scripts : List (Except Unit JVal))
    (m b : Option String) (s : String)
    (h : scripts.foldl authorStep "" = s) (hs : ¬ s = "") :
    resolveAuthor scripts m b = s := by
  simp only [resolveAuthor]
  rw [h]
  simp [hs]

/-- C9: whatever the author meta tag and byline element hold, a JSON-LD
author object yields its name and a JSON-LD author list yields the
comma-joined names — the structured-data field is resolved before the meta
tag and the byline. -/
theorem author_structured_data_first (metaAuthor byline : Option String) :
    resolveAuthor [Except.ok janeAuthorLd] metaAuthor byline = "Jane Doe" ∧
    resolveAuthor [Except.ok twoAuthorLd] metaAuthor byline =
      "Jane Doe, John Smith" := by
  constructor
  · exact resolveAuthor_of_scripts _ metaAuthor byline _ (by decide) (by decide)
  · exact resolveAuthor_of_scripts _ metaAuthor byline _ (by decide) (by decide)

/-- C9 witness: the precedence holds against a concrete populated meta tag
and byline. -/
theorem author_structured_data_first_witness :
    resolveAuthor [Except.ok janeAuthorLd] (some "Meta Person")
      (some "By Someone") = "Jane Doe" ∧
    resolveAuthor [Except.ok twoAuthorLd] (some "Meta Person")
      (some "By Someone") = "Jane Doe, John Smith" :=
  author_structured_data_first (some "Meta Person") (some "By Someone")

/-! ### Claim C10: link extractor output -/

theorem extractLinksAux_inv (uj : String → String → String)
    (nl : String → String) (isAbs : String → Bool) (base : String)
    (habs : ∀ h, isAbs (uj base h) = true) (hrefs : List (Option String))
    (acc : List String) (hacc : acc.Nodup)
    (hmem : ∀ u ∈ acc, isAbs u = true ∧ nl u = nl base ∧ deniedUrl u = false) :
    (extractLinksAux uj nl base hrefs acc).Nodup ∧
    ∀ u ∈ extractLinksAux uj nl base hrefs acc,
      isAbs u = true ∧ nl u = nl base ∧ deniedUrl u = false := by
  induction hrefs generalizing acc with
  | nil => exact ⟨hacc, hmem⟩
  | cons h? rest ih =>
    cases h? with
    | none =>
      simp only [extractLinksAux]
      exact ih acc hacc hmem
    | some h =>
      simp only [extractLinksAux]
      by_cases hd : deniedUrl (uj base h) = true
      · rw [if_pos hd]
        exact ih acc hacc hmem
      · rw [if_neg hd]
        by_cases hn : nl (uj base h) = nl base
        · rw [if_pos hn]
          by_cases hin : uj base h ∈ acc
          · rw [if_pos hin]
            exact ih acc hacc hmem
          · rw [if_neg hin]
            refine ih _ ?_ ?_
            · simp [List.nodup_append, hacc, hin]
            · intro u hu
              rcases List.mem_append.mp hu with h' | h'
              · exact hmem u h'
              · rcases List.mem_singleton.mp h' with rfl
                exact ⟨habs h, hn, by simpa using hd⟩
        · rw [if_neg hn]
          exact ih acc hacc hmem

/-- C10: whenever the resolver produces absolute URLs from the page's base
URL (as `urljoin` does for the absolute page URLs the crawler fetches), the
link extractor returns a duplicate-free collection of absolute URLs whose
host equals the page host, none containing a structural-denylist
substring. -/
theorem link_extractor_same_origin (uj : String → String → String)
    (nl : String → String) (isAbs : String → Bool) (base : String)
    (hrefs : List (Option String))
    (habs : ∀ h, isAbs (uj base h) = true) :
    (extract_article_links uj nl base hrefs).Nodup ∧
    ∀ u ∈ extract_article_links uj nl base hrefs,
      isAbs u = true ∧ nl u = nl base ∧ deniedUrl u = false :=
  extractLinksAux_inv uj nl isAbs base habs hrefs [] List.nodup_nil (by simp)

theorem isPre_append (p l m : List Char) (h : isPre p l = true) :
    isPre p (l ++ m) = true := by
  induction p generalizing l with
  | nil => rfl
  | cons a as ih =>
    cases l with
    | nil => exact Bool.noConfusion h
    | cons b bs =>
      simp only [isPre, List.cons_append, Bool.and_eq_true,
        decide_eq_true_eq] at h ⊢
      exact ⟨h.1, ih bs h.2⟩

theorem appendResolver_abs (h : String) :
    httpAbs (appendResolver "http://ex.com/" h) = true := by
  unfold appendResolver httpAbs
  have hd : ("http://ex.com/" ++ h).data = "http://ex.com/".data ++ h.data := by
    cases h
    rfl
  rw [hd]
  exact isPre_append _ _ _ (by decide)

/-- C10 witness: on a concrete page with a repeated link, a denylisted link
and an anchor without `href`, the extractor output is duplicate-free and a
returned link is absolute, same-host and not denylisted. -/
theorem link_extractor_same_origin_witness :
    (extract_article_links appendResolver netloc "http://ex.com/"
      witnessHrefs).Nodup ∧
    (httpAbs "http://ex.com/a" = true ∧
     netloc "http://ex.com/a" = netloc "http://ex.com/" ∧
     deniedUrl "http://ex.com/a" = false) := by
  have h := link_extractor_same_origin appendResolver netloc httpAbs
    "http://ex.com/" witnessHrefs appendResolver_abs
  exact ⟨h.1, h.2 "http://ex.com/a" (by decide)⟩

end DaCrawler
